import Mathlib

/-!
Verification of the waveform-synthesis pipeline of txpymusiclib
(`common/synt_wave/synt_song_khe.py`).

The numeric code is embedded over exact rationals `ℚ`: every Python/numpy
float operation is translated to the corresponding exact operation, `int(x)`
and `.astype(int)` become truncation toward zero (`pyInt`), and Python-level
failures (AssertionError, IndexError, ZeroDivisionError, ValueError, KeyError)
become an explicit `Except PyError` result.

The two collaborators imported by `synt_song_khe.py` that are not part of the
analysed sources (`get_sine_wave` from `common/synt_wave/from_numpy_khe.py`
and `get_piano_notes` from `common/txtone.py`) are modelled from the spec:
the sine generator is a parameter constrained to the length law the spec
states for it, and the note-frequency table is an explicit association list
queried exactly as the dictionary lookup on line 187 of the source.
-/

set_option maxHeartbeats 1000000

unseal Rat.mul Rat.inv Rat.add Rat.sub

/-- Errors raised by the Python code, named after the exception that the
corresponding source line raises.  The spec's conceptual error kinds map to
these: PedalAlignmentError is `assertionFailed` (line 137) or `indexError`
(line 142), InvalidProfile / InvalidADSR are `assertionFailed`,
UnknownNote is `keyError`. -/
inductive PyError where
  | assertionFailed
  | zeroDivisionError
  | indexError
  | valueError
  | keyError
  deriving DecidableEq, Repr

/-- Python `int(x)` and numpy `.astype(int)`: truncation toward zero. -/
def pyInt (q : ℚ) : ℤ :=
  if 0 ≤ q then ⌊q⌋ else ⌈q⌉

/-- Rounding to the nearest integer (the spec's `round`), half up. -/
def pyRound (q : ℚ) : ℤ :=
  ⌊q + 1/2⌋

/-- Does `x % y == 0` hold in Python for `y ≠ 0`, i.e. is `x` an integer
multiple of `y`?  Over `ℚ` this is exactly `(x / y).den = 1`. -/
def isIntMultiple (x y : ℚ) : Bool :=
  (x / y).den = 1

/-- numpy `np.cumsum`: the list of partial sums, same length as the input. -/
def npCumsum (l : List ℚ) : List ℚ :=
  (l.scanl (· + ·) 0).drop 1

/-- numpy `np.max` / `np.nanmax` of a nonempty buffer (there are no NaNs in
the exact-rational embedding, so the two coincide). -/
def listMax (l : List ℚ) : ℚ :=
  l.foldl max l.headI

/-! ### Pedal/Sustain Resolver (`apply_pedal`, lines 119-151) -/

/-- Line 141-142: `np.where(np.cumsum(ds) == bar)[0][0]`, the first offset
`e` at which the cumulative sum of `ds` equals `bar` exactly, if any. -/
def runEnd (ds : List ℚ) (bar : ℚ) : Option ℕ :=
  (List.range ds.length).find? (fun i => (ds.take (i+1)).sum == bar)

deriving instance DecidableEq for Except

theorem runEnd_spec {ds : List ℚ} {bar : ℚ} {e : ℕ} (h : runEnd ds bar = some e) :
    (ds.take (e+1)).sum = bar ∧ e < ds.length ∧ ∀ j < e, (ds.take (j+1)).sum ≠ bar := by
  simpa [runEnd] using h

theorem runEnd_lt_length {ds : List ℚ} {bar : ℚ} {e : ℕ}
    (h : runEnd ds bar = some e) : e < ds.length :=
  (runEnd_spec h).2.1

theorem runEnd_sum {ds : List ℚ} {bar : ℚ} {e : ℕ}
    (h : runEnd ds bar = some e) : (ds.take (e+1)).sum = bar :=
  (runEnd_spec h).1

/-- The `while True` loop of `apply_pedal` (lines 140-150), recursing on the
still-unprocessed suffix of the duration list.  `none` from `runEnd` is the
IndexError of line 142.  The first argument is structural fuel: every
iteration consumes at least one list element, so `ds.length` fuel is always
enough, and on exhausted fuel the list is empty, where the loop raises the
very same IndexError (`np.where` on an empty cumulative sum). -/
def pedalLoopF : ℕ → List ℚ → ℚ → Except PyError (List ℚ)
  | 0, _, _ => .error .indexError
  | fuel+1, ds, bar =>
    match runEnd ds bar with
    | none => .error .indexError
    | some e =>
      let runVals :=
        if e = 0 then [ds.headI]
        else (List.range (e+1)).map (fun i => bar - (ds.take i).sum)
      let rest := ds.drop (e+1)
      if rest = [] then .ok runVals
      else (pedalLoopF fuel rest bar).map (fun tl => runVals ++ tl)

/-- The loop with its canonical (always sufficient) fuel. -/
def pedalLoop (ds : List ℚ) (bar : ℚ) : Except PyError (List ℚ) :=
  pedalLoopF ds.length ds bar

/-- `apply_pedal` (line 119): the assert on line 137 models
`sum(note_values) % bar_value == 0`, raising ZeroDivisionError when
`bar_value` is zero and AssertionError when the sum is not an exact integer
multiple of the bar, then the bar-by-bar loop runs. -/
def apply_pedal (note_values : List ℚ) (bar_value : ℚ) : Except PyError (List ℚ) :=
  if bar_value = 0 then .error .zeroDivisionError
  else if isIntMultiple note_values.sum bar_value then pedalLoop note_values bar_value
  else .error .assertionFailed

/-- The run starts the `apply_pedal` loop visits: `start = 0` initially
(line 139), and after a run matching at offset `e` with `start + e + 1`
still short of the sequence end, `start + e + 1` (lines 148-149). -/
inductive IsRunStart (bar : ℚ) (ds : List ℚ) : ℕ → Prop where
  | zero : IsRunStart bar ds 0
  | step {s e : ℕ} : IsRunStart bar ds s → runEnd (ds.drop s) bar = some e →
      s + e + 1 < ds.length → IsRunStart bar ds (s + e + 1)

example : apply_pedal [1/2, 1/2, 1] 1 = .ok [1, 1/2, 1] := by decide
example : apply_pedal [3/10, 7/10] 1 = .ok [1, 7/10] := by decide
example : apply_pedal [3/10, 3/10] 1 = .error .assertionFailed := by decide
example : apply_pedal [1/2, 1, 1/2] 1 = .error .indexError := by decide
example : apply_pedal [2, -1] 1 = .ok [1, -1] := by decide

/-! ### Envelope Generator (`get_adsr_weights`, lines 56-116) -/

/-- numpy `np.convolve(a, v, mode='same')`: the centred `max (a.length)
(v.length)` values of the full discrete convolution. -/
def convolveSame (a v : List ℚ) : List ℚ :=
  let M := a.length
  let N := v.length
  let full := (List.range (M + N - 1)).map (fun k =>
    ((List.range M).map (fun i =>
      if i ≤ k ∧ k - i < N then a.getD i 0 * v.getD (k - i) 0 else 0)).sum)
  (full.drop ((min M N - 1) / 2)).take (max M N)

/-- Line 87: `intervals = int(duration * frequency)`. -/
def adsrIntervals (duration frequency : ℚ) : ℤ :=
  pyInt (duration * frequency)

/-- Lines 88-91: `np.maximum(int(intervals * length[i]), 1)`. -/
def adsrStageLen (intervals : ℤ) (frac : ℚ) : ℕ :=
  (max (pyInt ((intervals : ℚ) * frac)) 1).toNat

/-- Lines 87-110: the cycle-unit weight curve before upsampling: the four
exponential stage curves A, D, S, R concatenated and smoothed with the 5-tap
normalized kernel `0.1 * 0.9 ^ n` in convolution mode `same`.  In the
rational embedding `1/0 = 0` where numpy's float arithmetic would produce
`inf` (only reachable for the degenerate decay value 1). -/
def adsrPre (frequency duration : ℚ) (length decay : List ℚ) (sustain_level : ℚ) : List ℚ :=
  let intervals := adsrIntervals duration frequency
  let len_A := adsrStageLen intervals (length.getD 0 0)
  let len_D := adsrStageLen intervals (length.getD 1 0)
  let len_S := adsrStageLen intervals (length.getD 2 0)
  let len_R := adsrStageLen intervals (length.getD 3 0)
  let decay_A := decay.getD 0 0
  let decay_D := decay.getD 1 0
  let decay_S := decay.getD 2 0
  let decay_R := decay.getD 3 0
  let A0 := (List.range len_A).map (fun n => 1 / (1 - decay_A) ^ n)
  let A := A0.map (· / listMax A0)
  let D := (List.range len_D).map (fun n => (1 - decay_D) ^ n * (1 - sustain_level) + sustain_level)
  let S := (List.range len_S).map (fun n => (1 - decay_S) ^ n * sustain_level)
  let R := (List.range len_R).map (fun n => (1 - decay_R) ^ n * S.getLastD 0)
  let weights := A ++ D ++ S ++ R
  let sm0 := (List.range 5).map (fun n => (1/10 : ℚ) * (1 - 1/10) ^ n)
  let smoothing := sm0.map (· / sm0.sum)
  convolveSame weights smoothing

/-- Line 112: `int(sample_rate * duration / intervals)`, the per-cycle-unit
repeat count of the upsampling step. -/
def adsrRepeatCount (frequency duration : ℚ) (sample_rate : ℕ) : ℤ :=
  pyInt ((sample_rate : ℚ) * duration / (adsrIntervals duration frequency : ℚ))

/-- Line 112: `np.repeat(weights, int(sample_rate * duration / intervals))`. -/
def adsrRepeated (frequency duration : ℚ) (length decay : List ℚ) (sustain_level : ℚ)
    (sample_rate : ℕ) : List ℚ :=
  (adsrPre frequency duration length decay sustain_level).flatMap
    (fun x => List.replicate (adsrRepeatCount frequency duration sample_rate).toNat x)

/-- Line 113: `tail = int(sample_rate * duration - weights.shape[0])`. -/
def adsrTail (frequency duration : ℚ) (length decay : List ℚ) (sustain_level : ℚ)
    (sample_rate : ℕ) : ℤ :=
  pyInt ((sample_rate : ℚ) * duration
    - ((adsrRepeated frequency duration length decay sustain_level sample_rate).length : ℚ))

/-- `get_adsr_weights` (line 56): the asserts of lines 84-85, the
ZeroDivisionError of line 112 when `intervals == 0`, numpy's ValueError on a
negative repeat count, the IndexError of `weights[-1]` on an empty upsampled
curve, and the linear tail ramp of lines 113-115. -/
def get_adsr_weights (frequency duration : ℚ) (length decay : List ℚ) (sustain_level : ℚ)
    (sample_rate : ℕ) : Except PyError (List ℚ) :=
  if ¬ (|length.sum - 1| < 1/100000000) then .error .assertionFailed
  else if ¬ (length.length = 4 ∧ decay.length = 4) then .error .assertionFailed
  else if adsrIntervals duration frequency = 0 then .error .zeroDivisionError
  else if adsrRepeatCount frequency duration sample_rate < 0 then .error .valueError
  else
    let weights := adsrRepeated frequency duration length decay sustain_level sample_rate
    let tail := adsrTail frequency duration length decay sustain_level sample_rate
    if 0 < tail then
      if weights = [] then .error .indexError
      else .ok (weights ++ (List.range tail.toNat).map
        (fun t : ℕ => weights.getLastD 0 - weights.getLastD 0 / (tail : ℚ) * (t : ℚ)))
    else .ok weights

example :
    (get_adsr_weights 2 1 [1/4, 1/4, 1/4, 1/4] [1/2, 1/2, 1/2, 1/2] (1/2) 8).map List.length
      = .ok 20 := by decide
example :
    (get_adsr_weights 10 1 [1/4, 1/4, 1/4, 1/4] [1/2, 1/2, 1/2, 1/2] (1/2) 40).map List.length
      = .ok 40 := by decide
example : adsrTail 10 1 [1/4, 1/4, 1/4, 1/4] [1/2, 1/2, 1/2, 1/2] (1/2) 40 = 8 := by decide

/-! ### Overtone Synthesizer (`apply_overtones`, lines 18-53) -/

/-- Line 46: `np.minimum([frequency * (x+1) for x in range(len(factor))],
sample_rate // 2)`.  The clamp bound is the Python integer floor division
`sample_rate // 2`. -/
def overtone_frequencies (frequency : ℚ) (n : ℕ) (sample_rate : ℕ) : List ℚ :=
  (List.range n).map (fun k => min (frequency * ((k + 1 : ℕ) : ℚ)) ((sample_rate / 2 : ℕ) : ℚ))

/-- The harmonic frequencies as the spec words them: clamped at
`sample_rate / 2` with exact (real) division.  Kept separate from
`overtone_frequencies` so the two can be compared. -/
def overtone_frequencies_spec (frequency : ℚ) (n : ℕ) (sample_rate : ℕ) : List ℚ :=
  (List.range n).map (fun k => min (frequency * ((k + 1 : ℕ) : ℚ)) ((sample_rate : ℚ) / 2))

/-- Modelled from the spec: `get_sine_wave` (imported from
`common/synt_wave/from_numpy_khe.py`, which is not among the analysed
sources) is a wave generator taking frequency, duration, sample rate and
peak amplitude.  The spec pins down only its buffer length, `round(duration
* sample_rate)`; the sample values play no role in the claims below, so the
generator is kept as a parameter constrained by the length law. -/
structure SineGen where
  gen : ℚ → ℚ → ℕ → ℚ → List ℚ
  length_eq : ∀ f d sr a, (gen f d sr a).length = (pyRound (d * sr)).toNat

/-- A degenerate wave generator (constant samples of value
`amplitude * frequency`) used only to instantiate theorems about the
generator-parametric pipeline at concrete inputs. -/
def constGen : SineGen where
  gen := fun f d sr a => List.replicate (pyRound (d * sr)).toNat (a * f)
  length_eq := fun _ _ _ _ => by simp

/-- `apply_overtones` (line 18): the assert of line 44, then the sample-wise
sum (lines 49-52) of one generated wave per entry of `factor`, the `i`-th at
the clamped harmonic frequency with amplitude `amplitude * factor[i]`. -/
def apply_overtones (g : SineGen) (frequency duration : ℚ) (factor : List ℚ)
    (sample_rate : ℕ) (amplitude : ℚ) : Except PyError (List ℚ) :=
  if ¬ (|1 - factor.sum| < 1/100000000) then .error .assertionFailed
  else
    let freqs := overtone_frequencies frequency factor.length sample_rate
    let amps := factor.map (fun x => amplitude * x)
    match (List.range factor.length).map
        (fun i => g.gen (freqs.getD i 0) duration sample_rate (amps.getD i 0)) with
    | [] => .error .indexError
    | b :: bs => .ok (bs.foldl (fun acc o => acc.zipWith (· + ·) o) b)

/-! ### Song Assembler (`get_song_data`, lines 154-202) -/

/-- numpy slice accumulation `song[s:e] += arr` for nonnegative bounds:
numpy raises ValueError unless the clipped slice has exactly the length of
`arr`; otherwise the slice is replaced by its element-wise sum with `arr`. -/
def sliceAdd (song : List ℚ) (s e : ℕ) (arr : List ℚ) : Except PyError (List ℚ) :=
  let s' := min s song.length
  let e' := min e song.length
  if e' - s' ≠ arr.length then .error .valueError
  else .ok (song.take s' ++ ((song.drop s').take (e' - s')).zipWith (· + ·) arr
    ++ song.drop (max s' e'))

/-- `get_song_data` (line 154).  The note-frequency table (`get_piano_notes`
from `common/txtone.py`, not among the analysed sources, modelled from the
spec as an external lookup collaborator) is an explicit association list;
a missing note name is the dictionary KeyError of line 187.  Lines 196-198
call `apply_overtones` and `get_adsr_weights` without passing `sample_rate`
or `amplitude`, so those two always run at the defaults 44100 and 4096
whatever `sample_rate` this function receives.  The final normalization
(line 201) multiplies by `amplitude / np.max(song)`: the *signed* maximum,
and ℚ-division by zero yields 0 where numpy would emit inf/NaN with only a
RuntimeWarning. -/
def get_song_data (g : SineGen) (note_freqs : List (String × ℚ)) (music_notes : List String)
    (note_values : List ℚ) (bar_value : ℚ) (factor length decay : List ℚ)
    (sustain_level : ℚ) (sample_rate : ℕ) (amplitude : ℚ) : Except PyError (List ℚ) := do
  let frequencies ← music_notes.mapM (fun note =>
    match note_freqs.lookup note with
    | some f => Except.ok f
    | none => Except.error PyError.keyError)
  let new_values ← apply_pedal note_values bar_value
  let duration := pyInt (note_values.sum * (sample_rate : ℚ))
  if duration < 0 then throw PyError.valueError
  let end_idx0 := (npCumsum (note_values.map (fun v => v * (sample_rate : ℚ)))).map pyInt
  let start_idx : List ℤ := 0 :: end_idx0.dropLast
  let end_idx := (List.range new_values.length).map
    (fun i => pyInt ((start_idx.getD i 0 : ℚ) + new_values.getD i 0 * (sample_rate : ℚ)))
  let song0 : List ℚ := List.replicate duration.toNat 0
  let song ← (List.range music_notes.length).foldlM (fun song i => do
    if new_values.length ≤ i ∨ start_idx.length ≤ i then throw PyError.indexError
    let freq := frequencies.getD i 0
    let dur_i := new_values.getD i 0
    let this_note ← apply_overtones g freq dur_i factor 44100 4096
    let weights ← get_adsr_weights freq dur_i length decay sustain_level 44100
    if this_note.length ≠ weights.length then throw PyError.valueError
    let prod := this_note.zipWith (· * ·) weights
    let s := start_idx.getD i 0
    let e := end_idx.getD i 0
    if s < 0 ∨ e < 0 then throw PyError.valueError
    sliceAdd song s.toNat e.toNat prod) song0
  if song = [] then throw PyError.valueError
  pure (song.map (fun x => x * (amplitude / listMax song)))

/-! ### Heap model of the Pedal Resolver for the frame-effect claim -/

/-- A tiny heap of Python list objects: an address is an index into the
allocation order, and reading an unallocated address yields `[]`. -/
def heapRead (h : List (List ℚ)) (a : ℕ) : List ℚ :=
  h.getD a []

/-- The `apply_pedal` loop acting on the heap: the input `note_values` lives
at address `ia` and is only ever read (lines 141, 144, 146 slice or index
it); the accumulator `new_values` lives at `oa` and every
`new_values += [...]` (lines 144, 147) is an in-place update there.  Fuel
exactly as in `pedalLoopF`. -/
def pedalLoopHeap (bar : ℚ) (ia oa : ℕ) :
    ℕ → List (List ℚ) → ℕ → Except PyError (List (List ℚ))
  | 0, _, _ => .error .indexError
  | fuel+1, heap, start =>
    let ds := (heapRead heap ia).drop start
    match runEnd ds bar with
    | none => .error .indexError
    | some e =>
      let runVals :=
        if e = 0 then [ds.headI]
        else (List.range (e+1)).map (fun i => bar - (ds.take i).sum)
      let heap1 := heap.set oa (heapRead heap oa ++ runVals)
      if start + e + 1 = (heapRead heap1 ia).length then .ok heap1
      else pedalLoopHeap bar ia oa fuel heap1 (start + e + 1)

/-- `apply_pedal` on the heap: line 138 allocates the fresh `new_values = []`
at the next free address `heap.length`, the loop then fills it in place.
Returns the final heap and the address of the returned list. -/
def apply_pedal_heap (heap : List (List ℚ)) (ia : ℕ) (bar : ℚ) :
    Except PyError (List (List ℚ) × ℕ) :=
  let nv := heapRead heap ia
  if bar = 0 then .error .zeroDivisionError
  else if isIntMultiple nv.sum bar then
    (pedalLoopHeap bar ia heap.length nv.length (heap ++ [[]]) 0).map
      (fun h2 => (h2, heap.length))
  else .error .assertionFailed

example : apply_pedal_heap [[1/2, 1/2, 1]] 0 1 = .ok ([[1/2, 1/2, 1], [1, 1/2, 1]], 1) := by
  decide

/-! ### Helper lemmas -/

theorem getD_drop_eq (l : List ℚ) (k i : ℕ) : (l.drop k).getD i 0 = l.getD (k + i) 0 := by
  simp [List.getD_eq_getElem?_getD, List.getElem?_drop]

theorem sum_take_succ_getD {l : List ℚ} {i : ℕ} (h : i < l.length) :
    (l.take (i+1)).sum = (l.take i).sum + l.getD i 0 := by
  have hg : l[i]? = some l[i] := List.getElem?_eq_getElem h
  rw [List.take_succ, hg, List.sum_append, List.getD_eq_getElem?_getD, hg]
  simp

theorem sum_take_mono {l : List ℚ} (hnn : ∀ d ∈ l, 0 ≤ d) {m n : ℕ} (h : m ≤ n) :
    (l.take m).sum ≤ (l.take n).sum := by
  have hn : n = m + (n - m) := by omega
  rw [hn, List.take_add, List.sum_append]
  have h0 : 0 ≤ ((l.drop m).take (n - m)).sum :=
    List.sum_nonneg (fun x hx => hnn x (List.mem_of_mem_drop (List.mem_of_mem_take hx)))
  linarith

/-- Inversion of one successful iteration of the pedal loop. -/
theorem pedalLoopF_ok_cases {fuel : ℕ} {ds : List ℚ} {bar : ℚ} {res : List ℚ}
    (hok : pedalLoopF (fuel+1) ds bar = .ok res) :
    ∃ e, runEnd ds bar = some e ∧
      ∃ t, res = (if e = 0 then [ds.headI]
            else (List.range (e+1)).map (fun i => bar - (ds.take i).sum)) ++ t ∧
        ((ds.drop (e+1) = [] ∧ t = []) ∨
         (ds.drop (e+1) ≠ [] ∧ pedalLoopF fuel (ds.drop (e+1)) bar = .ok t)) := by
  simp only [pedalLoopF] at hok
  cases hre : runEnd ds bar with
  | none => rw [hre] at hok; exact absurd hok (by simp)
  | some e =>
    rw [hre] at hok
    dsimp only at hok
    by_cases hrest : ds.drop (e+1) = []
    · rw [if_pos hrest] at hok
      refine ⟨e, rfl, [], ?_, Or.inl ⟨hrest, rfl⟩⟩
      rw [List.append_nil]
      exact (Except.ok.injEq _ _ ▸ hok).symm
    · rw [if_neg hrest] at hok
      cases hrec : pedalLoopF fuel (ds.drop (e+1)) bar with
      | error err => rw [hrec] at hok; exact absurd hok (by simp [Except.map])
      | ok tl =>
        rw [hrec] at hok
        refine ⟨e, rfl, tl, ?_, Or.inr ⟨hrest, hrec⟩⟩
        have h2 : (if e = 0 then [ds.headI]
            else (List.range (e+1)).map (fun i => bar - (ds.take i).sum)) ++ tl = res := by
          simpa [Except.map] using hok
        exact h2.symm

/-- Invariants of the pedal loop: the output has one effective duration per
input note, and on nonnegative inputs every effective duration dominates the
nominal one. -/
theorem pedalLoopF_spec :
    ∀ (fuel : ℕ) (ds : List ℚ) (bar : ℚ) (res : List ℚ), ds.length ≤ fuel →
      pedalLoopF fuel ds bar = .ok res →
      res.length = ds.length ∧
      ((∀ d ∈ ds, 0 ≤ d) → ∀ i < ds.length, ds.getD i 0 ≤ res.getD i 0) := by
  intro fuel
  induction fuel with
  | zero => intro ds bar res hlen hok; exact absurd hok (by simp [pedalLoopF])
  | succ n ih =>
    intro ds bar res hlen hok
    obtain ⟨e, he, t, hres, hcase⟩ := pedalLoopF_ok_cases hok
    have hel := runEnd_lt_length he
    have hsum := runEnd_sum he
    set runVals := (if e = 0 then [ds.headI]
      else (List.range (e+1)).map (fun i => bar - (ds.take i).sum)) with hrv
    have hrvlen : runVals.length = e + 1 := by
      by_cases h0 : e = 0 <;> simp [hrv, h0]
    have hrun : (∀ d ∈ ds, 0 ≤ d) → ∀ i, i ≤ e → ds.getD i 0 ≤ runVals.getD i 0 := by
      intro hnn i hie
      by_cases h0 : e = 0
      · have hi0 : i = 0 := by omega
        subst hi0; subst h0
        have hds : ds.getD 0 0 = ds.headI := by
          cases ds with
          | nil => simp at hel
          | cons x xs => rfl
        rw [hrv, if_pos rfl, hds]
        exact le_of_eq rfl
      · rw [hrv, if_neg h0]
        have hi1 : i < e + 1 := by omega
        have hmap : ((List.range (e+1)).map (fun j => bar - (ds.take j).sum)).getD i 0
            = bar - (ds.take i).sum := by
          rw [List.getD_eq_getElem?_getD, List.getElem?_map, List.getElem?_range hi1]
          rfl
        rw [hmap]
        have hmono := sum_take_mono hnn (show i+1 ≤ e+1 by omega)
        rw [hsum] at hmono
        have hsucc := sum_take_succ_getD (show i < ds.length by omega)
        linarith [hmono, hsucc.ge, hsucc.le]
    rcases hcase with ⟨hdrop, ht⟩ | ⟨hne, hrec⟩
    · subst ht
      rw [List.append_nil] at hres
      subst hres
      have hlen2 : ds.length = e + 1 := by
        have h1 : ds.length ≤ e + 1 := List.drop_eq_nil_iff.mp hdrop
        omega
      refine ⟨by rw [hrvlen, hlen2], fun hnn i hi => hrun hnn i (by omega)⟩
    · obtain ⟨hlen3, hval3⟩ := ih (ds.drop (e+1)) bar t (by simp; omega) hrec
      subst hres
      rw [List.length_drop] at hlen3
      constructor
      · rw [List.length_append, hrvlen, hlen3]; omega
      · intro hnn i hi
        by_cases hi1 : i < e + 1
        · rw [List.getD_append _ _ _ i (by omega)]
          exact hrun hnn i (by omega)
        · rw [List.getD_append_right _ _ _ i (by omega), hrvlen]
          have hds : ds.getD i 0 = (ds.drop (e+1)).getD (i - (e+1)) 0 := by
            rw [getD_drop_eq]; congr 1; omega
          rw [hds]
          exact hval3 (fun d hd => hnn d (List.mem_of_mem_drop hd))
            (i - (e+1)) (by rw [List.length_drop]; omega)

/-- First-run values of a successful pedal loop: for a run ending at offset
`e > 0` the `i`-th value is `bar` minus the prefix sum before note `i`, and
a run with `e = 0` keeps the nominal duration. -/
theorem pedalLoop_first_run {ds : List ℚ} {bar : ℚ} {e : ℕ} {res : List ℚ}
    (he : runEnd ds bar = some e) (hok : pedalLoop ds bar = .ok res) :
    (0 < e → ∀ i ≤ e, res[i]? = some (bar - (ds.take i).sum)) ∧
    (e = 0 → res[0]? = ds[0]?) := by
  have hel := runEnd_lt_length he
  obtain ⟨n, hn⟩ : ∃ n, ds.length = n + 1 := ⟨ds.length - 1, by omega⟩
  rw [pedalLoop, hn] at hok
  obtain ⟨e2, he2, t, hres, _⟩ := pedalLoopF_ok_cases hok
  rw [he] at he2
  have hee : e = e2 := Option.some.inj he2
  subst hee
  subst hres
  constructor
  · intro hpos i hie
    rw [if_neg (by omega)]
    rw [List.getElem?_append, if_pos (by simp; omega)]
    rw [List.getElem?_map, List.getElem?_range (by omega)]
    rfl
  · intro h0
    subst h0
    rw [if_pos rfl]
    rw [List.getElem?_append, if_pos (by simp)]
    cases ds with
    | nil => simp at hel
    | cons x xs => simp [List.headI]

/-! ### Run decomposition of the pedal loop -/

theorem runEnd_nil (bar : ℚ) : runEnd [] bar = none := by
  simp [runEnd]

/-- The loop's result does not depend on the fuel, as long as the fuel
covers the list length. -/
theorem pedalLoopF_congr :
    ∀ (fuel₁ fuel₂ : ℕ) (ds : List ℚ) (bar : ℚ), ds.length ≤ fuel₁ → ds.length ≤ fuel₂ →
      pedalLoopF fuel₁ ds bar = pedalLoopF fuel₂ ds bar := by
  intro fuel₁
  induction fuel₁ with
  | zero =>
    intro fuel₂ ds bar h1 _
    have hds : ds = [] := List.eq_nil_of_length_eq_zero (by omega)
    subst hds
    cases fuel₂ with
    | zero => rfl
    | succ m => simp [pedalLoopF, runEnd_nil]
  | succ n ih =>
    intro fuel₂ ds bar h1 h2
    cases fuel₂ with
    | zero =>
      have hds : ds = [] := List.eq_nil_of_length_eq_zero (by omega)
      subst hds
      simp [pedalLoopF, runEnd_nil]
    | succ m =>
      simp only [pedalLoopF]
      cases hre : runEnd ds bar with
      | none => rfl
      | some e =>
        dsimp only
        by_cases hrest : ds.drop (e+1) = []
        · rw [if_pos hrest, if_pos hrest]
        · rw [if_neg hrest, if_neg hrest,
            ih m (ds.drop (e+1)) bar (by simp only [List.length_drop]; omega)
              (by simp only [List.length_drop]; omega)]

/-- Unfolding one full run of the loop when further notes remain: the result
is the run's values prepended to the loop's result on the remaining suffix. -/
theorem pedalLoop_cons_run {ds : List ℚ} {bar : ℚ} {e : ℕ}
    (he : runEnd ds bar = some e) (hne : ds.drop (e+1) ≠ []) :
    pedalLoop ds bar = (pedalLoop (ds.drop (e+1)) bar).map
      (fun tl => (if e = 0 then [ds.headI]
        else (List.range (e+1)).map (fun i => bar - (ds.take i).sum)) ++ tl) := by
  have hel := runEnd_lt_length he
  obtain ⟨n, hn⟩ : ∃ n, ds.length = n + 1 := ⟨ds.length - 1, by omega⟩
  rw [pedalLoop, hn]
  simp only [pedalLoopF, he]
  rw [if_neg hne, pedalLoop]
  exact congrArg (Except.map _)
    (pedalLoopF_congr n (ds.drop (e+1)).length (ds.drop (e+1)) bar
      (by rw [List.length_drop, hn]; omega) le_rfl)

/-- When no cumulative sum of the list hits the bar, the loop raises the
IndexError of line 142. -/
theorem pedalLoop_none_error {ds : List ℚ} {bar : ℚ} (h : runEnd ds bar = none) :
    pedalLoop ds bar = .error .indexError := by
  unfold pedalLoop
  cases hl : ds.length with
  | zero => rfl
  | succ n => simp only [pedalLoopF, h]

/-- On success, the loop restricted to any visited run start returns exactly
the corresponding suffix of the full result. -/
theorem pedalLoop_at_run_start {ds : List ℚ} {bar : ℚ} {res : List ℚ}
    (hok : pedalLoop ds bar = .ok res) {s : ℕ} (hs : IsRunStart bar ds s) :
    pedalLoop (ds.drop s) bar = .ok (res.drop s) := by
  induction hs with
  | zero => simpa using hok
  | @step s' e' hs' he' hlt ih =>
    have hne : (ds.drop s').drop (e'+1) ≠ [] := by
      simp only [ne_eq, List.drop_eq_nil_iff, List.length_drop]
      omega
    have hcr := pedalLoop_cons_run he' hne
    rw [ih] at hcr
    cases hrec : pedalLoop ((ds.drop s').drop (e'+1)) bar with
    | error err => rw [hrec] at hcr; exact absurd hcr (by simp [Except.map])
    | ok tl =>
      rw [hrec] at hcr
      have htl : (if e' = 0 then [(ds.drop s').headI]
          else (List.range (e'+1)).map (fun i => bar - ((ds.drop s').take i).sum)) ++ tl
          = res.drop s' := by simpa [Except.map] using hcr.symm
      have hlenrv : (if e' = 0 then [(ds.drop s').headI]
          else (List.range (e'+1)).map (fun i => bar - ((ds.drop s').take i).sum)).length
          = e' + 1 := by
        by_cases h0 : e' = 0 <;> simp [h0]
      have hds2 : (ds.drop s').drop (e'+1) = ds.drop (s' + e' + 1) := by
        rw [List.drop_drop, show s' + (e' + 1) = s' + e' + 1 from by omega]
      have hres2 : res.drop (s' + e' + 1) = tl := by
        have h4 : (res.drop s').drop (e'+1) = tl := by
          have h5 := List.drop_left (if e' = 0 then [(ds.drop s').headI]
            else (List.range (e'+1)).map (fun i => bar - ((ds.drop s').take i).sum)) tl
          rw [hlenrv] at h5
          rw [← htl]
          exact h5
        rw [← h4, List.drop_drop, show s' + (e' + 1) = s' + e' + 1 from by omega]
      rw [← hds2, hres2]
      exact hrec

/-- An error of the loop at any visited run start is the error of the whole
loop. -/
theorem pedalLoop_error_lift {ds : List ℚ} {bar : ℚ} {err : PyError} {s : ℕ}
    (hs : IsRunStart bar ds s) :
    pedalLoop (ds.drop s) bar = .error err → pedalLoop ds bar = .error err := by
  induction hs with
  | zero => intro h; simpa using h
  | @step s' e' hs' he' hlt ih =>
    intro h
    apply ih
    have hne : (ds.drop s').drop (e'+1) ≠ [] := by
      simp only [ne_eq, List.drop_eq_nil_iff, List.length_drop]
      omega
    rw [pedalLoop_cons_run he' hne]
    have hds2 : (ds.drop s').drop (e'+1) = ds.drop (s' + e' + 1) := by
      rw [List.drop_drop, show s' + (e' + 1) = s' + e' + 1 from by omega]
    rw [hds2, h]
    rfl

/-! ### Claim theorems for the Pedal Resolver -/

/-- Claim C2: for every input accepted by `apply_pedal` and every run the
loop visits (`IsRunStart`), if the run's cumulative sum first reaches the
bar at offset `e > 0` then the `i`-th effective duration of that run is
`bar_value` minus the cumulative sum of the nominal durations before it in
the run, and a run with `e = 0` keeps its own nominal duration; in
particular `[0.5, 0.5, 1.0]` with bar `1.0` yields `[1.0, 0.5, 1.0]` and
`[0.3, 0.7]` with bar `1.0` yields `[1.0, 0.7]`. -/
theorem claim_C2_run_values :
    (∀ (ds : List ℚ) (bar : ℚ) (res : List ℚ), apply_pedal ds bar = .ok res →
        ∀ s : ℕ, IsRunStart bar ds s → ∀ e : ℕ, runEnd (ds.drop s) bar = some e →
          ((0 < e → ∀ i ≤ e, res[s + i]? = some (bar - ((ds.drop s).take i).sum)) ∧
           (e = 0 → res[s]? = ds[s]?)))
    ∧ apply_pedal [1/2, 1/2, 1] 1 = .ok [1, 1/2, 1]
    ∧ apply_pedal [3/10, 7/10] 1 = .ok [1, 7/10] := by
  refine ⟨?_, by decide, by decide⟩
  intro ds bar res hok s hs e he
  have hloop : pedalLoop ds bar = .ok res := by
    unfold apply_pedal at hok
    split at hok
    · exact absurd hok (by simp)
    split at hok
    · exact hok
    · exact absurd hok (by simp)
  have hsfx := pedalLoop_at_run_start hloop hs
  have hfr := pedalLoop_first_run he hsfx
  refine ⟨fun hpos i hie => ?_, fun h0 => ?_⟩
  · have h1 := hfr.1 hpos i hie
    rwa [List.getElem?_drop] at h1
  · have h1 := hfr.2 h0
    rwa [List.getElem?_drop, List.getElem?_drop, Nat.add_zero] at h1

theorem claim_C2_witness :
    apply_pedal [1/2, 1/2, 1] 1 = .ok [1, 1/2, 1] ∧
    IsRunStart 1 [1/2, 1/2, 1] 2 ∧
    runEnd (([1/2, 1/2, 1] : List ℚ).drop 2) 1 = some 0 ∧
    ([1, 1/2, 1] : List ℚ)[2]? = ([1/2, 1/2, 1] : List ℚ)[2]? ∧
    runEnd (([1/2, 1/2, 1] : List ℚ).drop 0) 1 = some 1 ∧
    ([1, 1/2, 1] : List ℚ)[0 + 1]? = some (1 - ((([1/2, 1/2, 1] : List ℚ).drop 0).take 1).sum) :=
  ⟨by decide,
    @IsRunStart.step 1 [1/2, 1/2, 1] 0 1 IsRunStart.zero (by decide) (by decide),
    by decide,
    (claim_C2_run_values.1 [1/2, 1/2, 1] 1 [1, 1/2, 1] (by decide) 2
      (@IsRunStart.step 1 [1/2, 1/2, 1] 0 1 IsRunStart.zero (by decide) (by decide))
      0 (by decide)).2 rfl,
    by decide,
    (claim_C2_run_values.1 [1/2, 1/2, 1] 1 [1, 1/2, 1] (by decide) 0 IsRunStart.zero 1
      (by decide)).1 (by decide) 1 (by decide)⟩

/-- Claim C6: whenever, at any run start the `apply_pedal` loop visits, no
cumulative sum from that start hits `bar_value` exactly (for instance
`[0.3, 0.3]` with bar `1.0`, misaligned at start 0, or `[0.5, 0.5, 2]` with
bar `1.0`, misaligned at the second run), `apply_pedal` fails with one of
the two PedalAlignmentError kinds instead of returning a result: the
line-137 AssertionError or the line-142 IndexError of the empty `np.where`
match. -/
theorem claim_C6_misaligned_errors (ds : List ℚ) (bar : ℚ) (s : ℕ)
    (hbar : bar ≠ 0) (hs : IsRunStart bar ds s)
    (h : ∀ i < (ds.drop s).length, ((ds.drop s).take (i+1)).sum ≠ bar) :
    apply_pedal ds bar = .error .assertionFailed ∨
    apply_pedal ds bar = .error .indexError := by
  have hnone : runEnd (ds.drop s) bar = none := by
    unfold runEnd
    rw [List.find?_eq_none]
    intro x hx
    simp only [beq_iff_eq]
    exact fun hc => h x (List.mem_range.mp hx) (by exact_mod_cast hc)
  unfold apply_pedal
  rw [if_neg hbar]
  by_cases hm : isIntMultiple ds.sum bar
  · rw [if_pos hm]
    exact Or.inr (pedalLoop_error_lift hs (pedalLoop_none_error hnone))
  · rw [if_neg hm]
    exact Or.inl rfl

theorem claim_C6_witness :
    (1 : ℚ) ≠ 0 ∧
    IsRunStart 1 [1/2, 1/2, 2] 2 ∧
    (∀ i < (([1/2, 1/2, 2] : List ℚ).drop 2).length,
      ((([1/2, 1/2, 2] : List ℚ).drop 2).take (i+1)).sum ≠ 1) ∧
    (apply_pedal [1/2, 1/2, 2] 1 = .error .assertionFailed ∨
      apply_pedal [1/2, 1/2, 2] 1 = .error .indexError) ∧
    (∀ i < (([3/10, 3/10] : List ℚ).drop 0).length,
      ((([3/10, 3/10] : List ℚ).drop 0).take (i+1)).sum ≠ 1) ∧
    (apply_pedal [3/10, 3/10] 1 = .error .assertionFailed ∨
      apply_pedal [3/10, 3/10] 1 = .error .indexError) :=
  ⟨by decide,
    @IsRunStart.step 1 [1/2, 1/2, 2] 0 1 IsRunStart.zero (by decide) (by decide),
    by decide,
    claim_C6_misaligned_errors [1/2, 1/2, 2] 1 2 (by decide)
      (@IsRunStart.step 1 [1/2, 1/2, 2] 0 1 IsRunStart.zero (by decide) (by decide)) (by decide),
    by decide,
    claim_C6_misaligned_errors [3/10, 3/10] 1 0 (by decide) IsRunStart.zero (by decide)⟩

/-- Claim C7, counterexample to the claim as stated: the input `[2, -1]`
with bar `1` is accepted by `apply_pedal` (its sum is an exact multiple of
the bar and the cumulative sum hits the bar), yet the first effective
duration `1` is smaller than the nominal duration `2`. -/
theorem claim_C7_counterexample :
    apply_pedal [2, -1] 1 = .ok [1, -1] ∧
    ¬ (([2, -1] : List ℚ).getD 0 0 ≤ ([1, -1] : List ℚ).getD 0 0) := by decide

/-- Claim C7 as amended: for every accepted input the result has the same
length as the input, and whenever the nominal durations are all nonnegative
every effective duration is at least the corresponding nominal duration. -/
theorem claim_C7_amended (ds : List ℚ) (bar : ℚ) (res : List ℚ)
    (hok : apply_pedal ds bar = .ok res) :
    res.length = ds.length ∧
    ((∀ d ∈ ds, 0 ≤ d) → ∀ i < ds.length, ds.getD i 0 ≤ res.getD i 0) := by
  unfold apply_pedal at hok
  split at hok
  · exact absurd hok (by simp)
  split at hok
  · exact pedalLoopF_spec ds.length ds bar res le_rfl hok
  · exact absurd hok (by simp)

theorem claim_C7_witness :
    apply_pedal [1/2, 1/2, 1] 1 = .ok [1, 1/2, 1] ∧
    ([1, 1/2, 1] : List ℚ).length = ([1/2, 1/2, 1] : List ℚ).length ∧
    (∀ d ∈ ([1/2, 1/2, 1] : List ℚ), 0 ≤ d) ∧
    ([1/2, 1/2, 1] : List ℚ).getD 1 0 ≤ ([1, 1/2, 1] : List ℚ).getD 1 0 :=
  ⟨by decide,
    (claim_C7_amended [1/2, 1/2, 1] 1 [1, 1/2, 1] (by decide)).1,
    by decide,
    (claim_C7_amended [1/2, 1/2, 1] 1 [1, 1/2, 1] (by decide)).2 (by decide) 1 (by decide)⟩

/-! ### Claim theorems for the frame effect of the Pedal Resolver -/

theorem heapRead_set_ne {h : List (List ℚ)} {i j : ℕ} (hne : i ≠ j) (v : List ℚ) :
    heapRead (h.set i v) j = heapRead h j := by
  unfold heapRead
  rw [List.getD_eq_getElem?_getD, List.getD_eq_getElem?_getD, List.getElem?_set_ne hne]

/-- The pedal loop writes only at the accumulator address `oa`. -/
theorem pedalLoopHeap_preserves (bar : ℚ) (ia oa : ℕ) :
    ∀ (fuel : ℕ) (heap : List (List ℚ)) (start : ℕ) (h2 : List (List ℚ)),
      pedalLoopHeap bar ia oa fuel heap start = .ok h2 →
      ∀ a, a ≠ oa → heapRead h2 a = heapRead heap a := by
  intro fuel
  induction fuel with
  | zero => intro heap start h2 hok; exact absurd hok (by simp [pedalLoopHeap])
  | succ n ih =>
    intro heap start h2 hok a ha
    simp only [pedalLoopHeap] at hok
    cases hre : runEnd ((heapRead heap ia).drop start) bar with
    | none => rw [hre] at hok; exact absurd hok (by simp)
    | some e =>
      rw [hre] at hok
      dsimp only at hok
      generalize (if e = 0 then [((heapRead heap ia).drop start).headI]
          else (List.range (e+1)).map
            (fun i => bar - (((heapRead heap ia).drop start).take i).sum)) = rv at hok
      split at hok
      · have hset := Except.ok.inj hok
        subst hset
        exact heapRead_set_ne (Ne.symm ha) _
      · exact (ih _ _ _ hok a ha).trans (heapRead_set_ne (Ne.symm ha) _)

/-- Claim C10: `apply_pedal` never mutates its input: on success the list at
the input address is element-for-element unchanged, and the returned list is
a freshly allocated object (at the previously unused address `heap.length`,
in particular distinct from the input's address). -/
theorem claim_C10_no_input_mutation (heap : List (List ℚ)) (ia : ℕ) (bar : ℚ)
    (h2 : List (List ℚ)) (oa : ℕ) (hia : ia < heap.length)
    (hok : apply_pedal_heap heap ia bar = .ok (h2, oa)) :
    heapRead h2 ia = heapRead heap ia ∧ oa = heap.length ∧ oa ≠ ia := by
  simp only [apply_pedal_heap] at hok
  split at hok
  · exact absurd hok (by simp)
  split at hok
  · cases hrec : pedalLoopHeap bar ia heap.length (heapRead heap ia).length (heap ++ [[]]) 0 with
    | error err => rw [hrec] at hok; exact absurd hok (by simp [Except.map])
    | ok hh =>
      rw [hrec] at hok
      have hpair : hh = h2 ∧ heap.length = oa := by simpa [Except.map] using hok
      obtain ⟨hhh, hoa⟩ := hpair
      subst hhh
      subst hoa
      refine ⟨?_, rfl, by omega⟩
      rw [pedalLoopHeap_preserves bar ia heap.length _ _ _ _ hrec ia (by omega)]
      unfold heapRead
      rw [List.getD_append _ _ _ ia hia]
  · exact absurd hok (by simp)

theorem claim_C10_witness :
    (0 : ℕ) < ([[1/2, 1/2, 1]] : List (List ℚ)).length ∧
    apply_pedal_heap [[1/2, 1/2, 1]] 0 1 = .ok ([[1/2, 1/2, 1], [1, 1/2, 1]], 1) ∧
    heapRead [[1/2, 1/2, 1], [1, 1/2, 1]] 0 = heapRead [[1/2, 1/2, 1]] 0 ∧
    (1 : ℕ) ≠ 0 :=
  ⟨by decide, by decide,
    (claim_C10_no_input_mutation [[1/2, 1/2, 1]] 0 1 [[1/2, 1/2, 1], [1, 1/2, 1]] 1
      (by decide) (by decide)).1,
    (claim_C10_no_input_mutation [[1/2, 1/2, 1]] 0 1 [[1/2, 1/2, 1], [1, 1/2, 1]] 1
      (by decide) (by decide)).2.2⟩

/-! ### Claim theorems for the Envelope Generator -/

theorem length_flatMap_replicate (l : List ℚ) (c : ℕ) :
    (l.flatMap (fun x => List.replicate c x)).length = l.length * c := by
  induction l with
  | nil => simp
  | cons x xs ih =>
    simp only [List.flatMap_cons, List.length_append, List.length_replicate, ih, List.length_cons]
    ring

theorem floor_round_close (q : ℚ) : |⌊q⌋ - ⌊q + 1/2⌋| ≤ 1 := by
  have h1 : ⌊q⌋ ≤ ⌊q + 1/2⌋ := Int.floor_le_floor (by linarith)
  have h2 : ⌊q + 1/2⌋ ≤ ⌊q + 1⌋ := Int.floor_le_floor (by linarith)
  rw [show (q + 1 : ℚ) = q + (1 : ℤ) by push_cast; ring, Int.floor_add_int] at h2
  rw [abs_le]
  omega

/-- Inversion of a successful `get_adsr_weights` run: the result is the
upsampled curve, extended by the linear tail ramp when the tail is positive. -/
theorem get_adsr_weights_ok_cases {frequency duration : ℚ} {length decay : List ℚ}
    {sustain_level : ℚ} {sample_rate : ℕ} {res : List ℚ}
    (hok : get_adsr_weights frequency duration length decay sustain_level sample_rate
      = .ok res) :
    (0 < adsrTail frequency duration length decay sustain_level sample_rate ∧
      adsrRepeated frequency duration length decay sustain_level sample_rate ≠ [] ∧
      res = adsrRepeated frequency duration length decay sustain_level sample_rate
        ++ (List.range (adsrTail frequency duration length decay sustain_level
              sample_rate).toNat).map
            (fun t : ℕ => (adsrRepeated frequency duration length decay sustain_level
                sample_rate).getLastD 0
              - (adsrRepeated frequency duration length decay sustain_level
                  sample_rate).getLastD 0
                / ((adsrTail frequency duration length decay sustain_level sample_rate : ℤ) : ℚ)
                * (t : ℚ)))
    ∨ (adsrTail frequency duration length decay sustain_level sample_rate ≤ 0 ∧
        res = adsrRepeated frequency duration length decay sustain_level sample_rate) := by
  unfold get_adsr_weights at hok
  split at hok
  · exact absurd hok (by simp)
  split at hok
  · exact absurd hok (by simp)
  split at hok
  · exact absurd hok (by simp)
  split at hok
  · exact absurd hok (by simp)
  dsimp only at hok
  split at hok
  · split at hok
    · exact absurd hok (by simp)
    · refine Or.inl ⟨by assumption, by assumption, (Except.ok.inj hok).symm⟩
  · exact Or.inr ⟨by omega, (Except.ok.inj hok).symm⟩

/-- Claim C3, counterexample to the claim as stated: with stage lengths
`[1/4, 1/4, 1/4, 1/4]` (summing to 1), frequency `2 > 0`, duration `1 > 0`
and sample rate `8`, only `intervals = 2` cycle units exist, every stage is
clamped to one unit, the 5-tap smoothing pads the curve to 5 entries, and
upsampling by `int(8/2) = 4` yields 20 samples where `round(1 * 8) = 8` was
claimed: off by 12, not within one sample. -/
theorem claim_C3_counterexample :
    (|([1/4, 1/4, 1/4, 1/4] : List ℚ).sum - 1| < 1/100000000) ∧
    (0 : ℚ) < 2 ∧ (0 : ℚ) < 1 ∧
    (get_adsr_weights 2 1 [1/4, 1/4, 1/4, 1/4] [1/2, 1/2, 1/2, 1/2] (1/2) 8).map List.length
      = .ok 20 ∧
    ¬ (|(20 : ℤ) - pyRound (1 * ((8 : ℕ) : ℚ))| ≤ 1) := by decide

/-- Claim C3 as amended: whenever `get_adsr_weights` succeeds and the
upsampled curve does not overshoot the target sample count
(`len(np.repeat(...)) ≤ sample_rate * duration`, i.e. the tail of line 113
is nonnegative), the returned weight curve has length within one sample of
`round(duration * sample_rate)`. -/
theorem claim_C3_amended (frequency duration : ℚ) (length decay : List ℚ)
    (sustain_level : ℚ) (sample_rate : ℕ) (res : List ℚ)
    (hok : get_adsr_weights frequency duration length decay sustain_level sample_rate = .ok res)
    (hfit : ((adsrRepeated frequency duration length decay sustain_level sample_rate).length : ℚ)
      ≤ (sample_rate : ℚ) * duration) :
    |(res.length : ℤ) - pyRound (duration * (sample_rate : ℚ))| ≤ 1 := by
  have htail : adsrTail frequency duration length decay sustain_level sample_rate
      = ⌊(sample_rate : ℚ) * duration⌋
        - ((adsrRepeated frequency duration length decay sustain_level sample_rate).length : ℤ) := by
    unfold adsrTail pyInt
    rw [if_pos (by linarith [hfit])]
    exact Int.floor_sub_nat _ _
  have hflen : ((adsrRepeated frequency duration length decay sustain_level
      sample_rate).length : ℤ) ≤ ⌊(sample_rate : ℚ) * duration⌋ :=
    Int.le_floor.mpr (by exact_mod_cast hfit)
  rcases get_adsr_weights_ok_cases hok with ⟨hpos, _, hres⟩ | ⟨hle, hres⟩
  · have hlen : (res.length : ℤ) = ⌊(sample_rate : ℚ) * duration⌋ := by
      rw [hres, List.length_append, List.length_map, List.length_range]
      push_cast
      omega
    calc |(res.length : ℤ) - pyRound (duration * (sample_rate : ℚ))|
        = |⌊(sample_rate : ℚ) * duration⌋ - ⌊(sample_rate : ℚ) * duration + 1/2⌋| := by
          rw [hlen, pyRound, mul_comm]
      _ ≤ 1 := floor_round_close _
  · have h3 : ((adsrRepeated frequency duration length decay sustain_level
        sample_rate).length : ℤ) = ⌊(sample_rate : ℚ) * duration⌋ := by
      rw [htail] at hle
      omega
    have hlen : (res.length : ℤ) = ⌊(sample_rate : ℚ) * duration⌋ := by
      rw [hres]; exact h3
    calc |(res.length : ℤ) - pyRound (duration * (sample_rate : ℚ))|
        = |⌊(sample_rate : ℚ) * duration⌋ - ⌊(sample_rate : ℚ) * duration + 1/2⌋| := by
          rw [hlen, pyRound, mul_comm]
      _ ≤ 1 := floor_round_close _

theorem claim_C3_witness :
    (get_adsr_weights 10 1 [1/4, 1/4, 1/4, 1/4] [1/2, 1/2, 1/2, 1/2] (1/2) 40
      = .ok ((get_adsr_weights 10 1 [1/4, 1/4, 1/4, 1/4] [1/2, 1/2, 1/2, 1/2]
          (1/2) 40).toOption.getD []))
    ∧ (((adsrRepeated 10 1 [1/4, 1/4, 1/4, 1/4] [1/2, 1/2, 1/2, 1/2] (1/2) 40).length : ℚ)
        ≤ ((40 : ℕ) : ℚ) * 1)
    ∧ |(((get_adsr_weights 10 1 [1/4, 1/4, 1/4, 1/4] [1/2, 1/2, 1/2, 1/2]
          (1/2) 40).toOption.getD []).length : ℤ)
        - pyRound (1 * ((40 : ℕ) : ℚ))| ≤ 1 :=
  ⟨by decide, by decide,
    claim_C3_amended 10 1 [1/4, 1/4, 1/4, 1/4] [1/2, 1/2, 1/2, 1/2] (1/2) 40 _
      (by decide) (by decide)⟩

/-- Claim C5: whenever the upsampled weight curve falls short of the target
sample count (`tail > 0`), `get_adsr_weights` appends exactly `tail` samples
forming the linear ramp `last - last/tail * t` for `t = 0, ..., tail-1`: it
starts at the last weight value, decreases linearly, and would reach 0
exactly at step `tail`. -/
theorem claim_C5_tail_ramp (frequency duration : ℚ) (length decay : List ℚ)
    (sustain_level : ℚ) (sample_rate : ℕ) (res : List ℚ)
    (hok : get_adsr_weights frequency duration length decay sustain_level sample_rate = .ok res)
    (htail : 0 < adsrTail frequency duration length decay sustain_level sample_rate) :
    res.length = (adsrRepeated frequency duration length decay sustain_level sample_rate).length
        + (adsrTail frequency duration length decay sustain_level sample_rate).toNat
    ∧ (∀ t < (adsrTail frequency duration length decay sustain_level sample_rate).toNat,
        res.getD ((adsrRepeated frequency duration length decay sustain_level
            sample_rate).length + t) 0
          = (adsrRepeated frequency duration length decay sustain_level sample_rate).getLastD 0
            - (adsrRepeated frequency duration length decay sustain_level
                sample_rate).getLastD 0
              / ((adsrTail frequency duration length decay sustain_level sample_rate : ℤ) : ℚ)
              * (t : ℚ))
    ∧ (adsrRepeated frequency duration length decay sustain_level sample_rate).getLastD 0
        - (adsrRepeated frequency duration length decay sustain_level sample_rate).getLastD 0
          / ((adsrTail frequency duration length decay sustain_level sample_rate : ℤ) : ℚ)
          * ((adsrTail frequency duration length decay sustain_level sample_rate : ℤ) : ℚ)
        = 0 := by
  have hz : ((adsrTail frequency duration length decay sustain_level sample_rate : ℤ) : ℚ) ≠ 0 := by
    exact_mod_cast (by omega : adsrTail frequency duration length decay sustain_level
      sample_rate ≠ 0)
  rcases get_adsr_weights_ok_cases hok with ⟨_, _, hres⟩ | ⟨hle, _⟩
  · subst hres
    refine ⟨by simp, ?_, ?_⟩
    · intro t ht
      rw [List.getD_append_right _ _ _ _ (Nat.le_add_right _ _)]
      rw [Nat.add_sub_cancel_left]
      rw [List.getD_eq_getElem?_getD, List.getElem?_map, List.getElem?_range ht]
      rfl
    · rw [div_mul_cancel₀ _ hz, sub_self]
  · omega

theorem claim_C5_witness :
    (get_adsr_weights 10 1 [1/4, 1/4, 1/4, 1/4] [1/10, 1/10, 1/10, 1/10] (1/2) 40
      = .ok ((get_adsr_weights 10 1 [1/4, 1/4, 1/4, 1/4] [1/10, 1/10, 1/10, 1/10]
          (1/2) 40).toOption.getD []))
    ∧ 0 < adsrTail 10 1 [1/4, 1/4, 1/4, 1/4] [1/10, 1/10, 1/10, 1/10] (1/2) 40
    ∧ ((get_adsr_weights 10 1 [1/4, 1/4, 1/4, 1/4] [1/10, 1/10, 1/10, 1/10]
          (1/2) 40).toOption.getD []).length
        = (adsrRepeated 10 1 [1/4, 1/4, 1/4, 1/4] [1/10, 1/10, 1/10, 1/10] (1/2) 40).length
          + (adsrTail 10 1 [1/4, 1/4, 1/4, 1/4] [1/10, 1/10, 1/10, 1/10] (1/2) 40).toNat
    ∧ ((get_adsr_weights 10 1 [1/4, 1/4, 1/4, 1/4] [1/10, 1/10, 1/10, 1/10]
          (1/2) 40).toOption.getD []).getD
        ((adsrRepeated 10 1 [1/4, 1/4, 1/4, 1/4] [1/10, 1/10, 1/10, 1/10] (1/2) 40).length
          + 3) 0
        = (adsrRepeated 10 1 [1/4, 1/4, 1/4, 1/4] [1/10, 1/10, 1/10, 1/10] (1/2) 40).getLastD 0
          - (adsrRepeated 10 1 [1/4, 1/4, 1/4, 1/4] [1/10, 1/10, 1/10, 1/10]
              (1/2) 40).getLastD 0
            / ((adsrTail 10 1 [1/4, 1/4, 1/4, 1/4] [1/10, 1/10, 1/10, 1/10] (1/2) 40 : ℤ) : ℚ)
            * ((3 : ℕ) : ℚ) :=
  ⟨by decide, by decide,
    (claim_C5_tail_ramp 10 1 [1/4, 1/4, 1/4, 1/4] [1/10, 1/10, 1/10, 1/10] (1/2) 40 _
      (by decide) (by decide)).1,
    (claim_C5_tail_ramp 10 1 [1/4, 1/4, 1/4, 1/4] [1/10, 1/10, 1/10, 1/10] (1/2) 40 _
      (by decide) (by decide)).2.1 3 (by decide)⟩

/-! ### Claim theorems for the Overtone Synthesizer -/

theorem zipWith_add_getD {a b : List ℚ} (hlen : a.length = b.length) {j : ℕ}
    (hj : j < a.length) :
    (a.zipWith (· + ·) b).getD j 0 = a.getD j 0 + b.getD j 0 := by
  have hz : j < (a.zipWith (· + ·) b).length := by
    rw [List.length_zipWith, hlen]; simp; omega
  rw [List.getD_eq_getElem?_getD, List.getElem?_eq_getElem hz, List.getElem_zipWith]
  rw [List.getD_eq_getElem?_getD, List.getElem?_eq_getElem hj]
  rw [List.getD_eq_getElem?_getD, List.getElem?_eq_getElem (hlen ▸ hj)]
  rfl

/-- Element-wise description of the accumulation loop of lines 49-52: fold
of pointwise addition over equal-length buffers. -/
theorem foldl_zipWith_add_spec (L : ℕ) :
    ∀ (bs : List (List ℚ)) (b : List ℚ), b.length = L → (∀ x ∈ bs, x.length = L) →
      (bs.foldl (fun acc o => acc.zipWith (· + ·) o) b).length = L ∧
      ∀ j < L, (bs.foldl (fun acc o => acc.zipWith (· + ·) o) b).getD j 0
        = b.getD j 0 + (bs.map (fun x => x.getD j 0)).sum := by
  intro bs
  induction bs with
  | nil => intro b hb _; exact ⟨hb, fun j _ => by simp⟩
  | cons x xs ih =>
    intro b hb hall
    have hx : x.length = L := hall x (by simp)
    have hzb : (b.zipWith (· + ·) x).length = L := by
      rw [List.length_zipWith, hb, hx]; simp
    obtain ⟨hl, hv⟩ := ih (b.zipWith (· + ·) x) hzb (fun y hy => hall y (by simp [hy]))
    refine ⟨hl, fun j hj => ?_⟩
    simp only [List.foldl_cons]
    rw [hv j hj, zipWith_add_getD (by rw [hb, hx]) (by omega), List.map_cons, List.sum_cons]
    ring

/-- Claim C8, counterexample to the claim as stated: line 46 clamps at the
Python integer floor division `sample_rate // 2`, not at `sample_rate / 2`.
For an odd sample rate `3` and fundamental `10`, the synthesized frequency
of harmonic 0 is `min(10, 1) = 1`, while the claim's `min(10, 3/2) = 3/2`. -/
theorem claim_C8_counterexample :
    overtone_frequencies 10 1 3 = [1] ∧ overtone_frequencies_spec 10 1 3 = [3/2] ∧
    overtone_frequencies 10 1 3 ≠ overtone_frequencies_spec 10 1 3 := by decide

/-- Claim C8 as amended: for every wave generator and every successful call,
the buffer returned by `apply_overtones` is the pointwise sum, over every
harmonic index `k` (duplicates included, no dedup), of the generated wave at
the clamped frequency `min(frequency * (k+1), sample_rate // 2)` with
amplitude `amplitude * factor[k]`. -/
theorem claim_C8_amended (g : SineGen) (frequency duration : ℚ) (factor : List ℚ)
    (sample_rate : ℕ) (amplitude : ℚ) (res : List ℚ)
    (hok : apply_overtones g frequency duration factor sample_rate amplitude = .ok res) :
    res.length = (pyRound (duration * (sample_rate : ℚ))).toNat ∧
    ∀ j < res.length, res.getD j 0
      = ((List.range factor.length).map (fun k =>
          (g.gen (min (frequency * ((k + 1 : ℕ) : ℚ)) ((sample_rate / 2 : ℕ) : ℚ))
            duration sample_rate (amplitude * factor.getD k 0)).getD j 0)).sum := by
  unfold apply_overtones at hok
  split at hok
  · exact absurd hok (by simp)
  dsimp only at hok
  split at hok
  · exact absurd hok (by simp)
  case _ b bs heq =>
    have hres : bs.foldl (fun acc o => acc.zipWith (· + ·) o) b = res := Except.ok.inj hok
    have hmem : ∀ y ∈ b :: bs, y.length = (pyRound (duration * (sample_rate : ℚ))).toNat := by
      intro y hy
      rw [← heq] at hy
      obtain ⟨k, _, rfl⟩ := List.mem_map.mp hy
      exact g.length_eq _ _ _ _
    obtain ⟨hlen, hval⟩ := foldl_zipWith_add_spec (pyRound (duration * (sample_rate : ℚ))).toNat
      bs b (hmem b (by simp)) (fun y hy => hmem y (by simp [hy]))
    rw [hres] at hlen hval
    refine ⟨hlen, fun j hj => ?_⟩
    rw [hlen] at hj
    have hsum : ((b :: bs).map (fun x => x.getD j 0)).sum
        = b.getD j 0 + (bs.map (fun x => x.getD j 0)).sum := by
      rw [List.map_cons, List.sum_cons]
    rw [hval j hj, ← hsum, ← heq, List.map_map]
    apply congrArg List.sum
    apply List.map_congr_left
    intro k hk
    have hk2 : k < factor.length := List.mem_range.mp hk
    have hfreq : (overtone_frequencies frequency factor.length sample_rate).getD k 0
        = min (frequency * ((k + 1 : ℕ) : ℚ)) ((sample_rate / 2 : ℕ) : ℚ) := by
      rw [overtone_frequencies, List.getD_eq_getElem?_getD, List.getElem?_map,
        List.getElem?_range hk2]
      rfl
    have hamp : (factor.map (fun x => amplitude * x)).getD k 0 = amplitude * factor.getD k 0 := by
      rw [List.getD_eq_getElem?_getD, List.getElem?_map,
        List.getElem?_eq_getElem hk2, List.getD_eq_getElem?_getD, List.getElem?_eq_getElem hk2]
      rfl
    simp only [Function.comp_apply, hfreq, hamp]

theorem claim_C8_witness :
    apply_overtones constGen 10 1 [1/2, 1/2] 4 2 = .ok [4, 4, 4, 4] ∧
    ([4, 4, 4, 4] : List ℚ).length = (pyRound ((1 : ℚ) * ((4 : ℕ) : ℚ))).toNat ∧
    ([4, 4, 4, 4] : List ℚ).getD 2 0
      = ((List.range ([1/2, 1/2] : List ℚ).length).map (fun k =>
          (constGen.gen (min ((10 : ℚ) * ((k + 1 : ℕ) : ℚ)) (((4 : ℕ) / 2 : ℕ) : ℚ))
            1 4 (2 * ([1/2, 1/2] : List ℚ).getD k 0)).getD 2 0)).sum :=
  ⟨by decide,
    (claim_C8_amended constGen 10 1 [1/2, 1/2] 4 2 [4, 4, 4, 4] (by decide)).1,
    (claim_C8_amended constGen 10 1 [1/2, 1/2] 4 2 [4, 4, 4, 4] (by decide)).2 2 (by decide)⟩

/-! ### Claim theorems for the Song Assembler -/

/-- Claim C9: `get_song_data` is deterministic: with the wave generator and
the note-frequency table made explicit, the embedded pipeline is a pure
function, so two calls on identical arguments return identical buffers. -/
theorem claim_C9_deterministic (g : SineGen) (note_freqs : List (String × ℚ))
    (music_notes : List String) (note_values : List ℚ) (bar_value : ℚ)
    (factor length decay : List ℚ) (sustain_level : ℚ) (sample_rate : ℕ) (amplitude : ℚ) :
    get_song_data g note_freqs music_notes note_values bar_value factor length decay
        sustain_level sample_rate amplitude
      = get_song_data g note_freqs music_notes note_values bar_value factor length decay
        sustain_level sample_rate amplitude := rfl

/-- Claim C4: evaluation of the model at a song whose assembled buffer is
all zeros (no note events, one bar of rest).  The function does not fail: it
returns a buffer.  Line 201 computes `amplitude / np.max(song)` with
`np.max(song) = 0.0`; numpy emits only a RuntimeWarning and yields `inf`,
so the real code returns an all-NaN buffer rather than raising; in the
exact-rational model division by zero gives 0 and the returned buffer is
all zeros.  Either way the claimed EmptySong failure does not happen. -/
theorem claim_C4_returns_buffer (g : SineGen) :
    get_song_data g [] [] [1] 1 [1] [1/4, 1/4, 1/4, 1/4] [1/2, 1/2, 1/2, 1/2] (1/2) 5 4096
      = .ok (List.replicate 5 0) := rfl
